import Mathlib

/-!
Verification of the rework-dashboard repository.

Part 1 models the label canonicalizer (the spec's core component, absent
from the checked-in source file): a greedy single-pass clustering of
near-duplicate text labels under a normalized edit-distance similarity.

Part 2 models the data-loading and aggregation stages of `reworkapp.py`:
the column guards, the hourly machine-data comparison, the Pareto
cumulative percentages and the missing-value fill of the rework analysis.
-/

namespace Rework

/-- Fuel-indexed Levenshtein edit distance on character lists.  The fuel
argument only makes the recursion structural; any fuel of at least
`xs.length + ys.length` computes the true edit distance. -/
def levF : Nat → List Char → List Char → Nat
  | _, [], ys => ys.length
  | _, x :: xs, [] => (x :: xs).length
  | 0, _ :: _, _ :: _ => 0
  | f + 1, x :: xs, y :: ys =>
      if x = y then levF f xs ys
      else 1 + min (levF f xs (y :: ys)) (min (levF f (x :: xs) ys) (levF f xs ys))

/-- Modelled from the spec: the string-similarity ratio used by the
canonicalizer (`fix_typos`), whose code is not part of the checked-in
source.  Per §4.1 it is a "normalized edit-distance-based similarity,
range [0,1], symmetric, 1.0 for identical strings". -/
def similarity (a b : String) : ℚ :=
  if max a.data.length b.data.length = 0 then 1
  else
    mkRat
      (max a.data.length b.data.length -
        levF (a.data.length + b.data.length) a.data b.data)
      (max a.data.length b.data.length)

/-- Association-list lookup for the canonical mapping (Python dict read). -/
def mlookup : List (String × String) → String → Option String
  | [], _ => none
  | (k, v) :: m, x => if k = x then some v else mlookup m x

/-- Association-list store (Python dict write `M[k] = v`): overwrite an
existing key in place, otherwise append at the end (insertion order). -/
def dinsert : List (String × String) → String → String → List (String × String)
  | [], k, v => [(k, v)]
  | (k', v') :: m, k, v =>
      if k' = k then (k, v) :: m else (k', v') :: dinsert m k v

/-- The keys of a mapping, in insertion order. -/
def keys (m : List (String × String)) : List String := m.map Prod.fst

/-- Modelled from the spec: the "single best match" search of §4.1 step 2a
over the current key pool, earliest key winning ties. -/
def bestMatch (sim : String → String → ℚ) (L : String) : List String → Option String
  | [] => none
  | k :: ks =>
      match bestMatch sim L ks with
      | none => some k
      | some b => if sim L b > sim L k then some b else some k

/-- Modelled from the spec: the value the canonicalizer records for label
`L` given the mapping built so far (§4.1 steps 2a–2c): the matched key
itself when the best match reaches the threshold, else `L`. -/
def chooseValue (sim : String → String → ℚ) (L : String) (t : ℚ)
    (m : List (String × String)) : String :=
  match bestMatch sim L (keys m) with
  | some b => if t ≤ sim L b then b else L
  | none => L

/-- Modelled from the spec: the greedy sequential clustering loop of §4.1
step 2, processing labels in the given order. -/
def canonicalizeAux (sim : String → String → ℚ) (t : ℚ) :
    List String → List (String × String) → List (String × String)
  | [], m => m
  | L :: ls, m => canonicalizeAux sim t ls (dinsert m L (chooseValue sim L t m))

/-- Modelled from the spec: `canonicalize(labels, threshold)` (§6), the
single operation of the Label Canonicalizer, whose implementation
(`fix_typos`) is missing from the checked-in source. -/
def canonicalize (labels : List String) (t : ℚ) : List (String × String) :=
  canonicalizeAux similarity t labels []

/-- First index of a string in a list (0 when absent past the end). -/
def firstIdx : List String → String → Nat
  | [], _ => 0
  | x :: xs, a => if x = a then 0 else firstIdx xs a + 1

/-- Number of distinct canonical labels in the produced mapping. -/
def numCanonical (labels : List String) (t : ℚ) : Nat :=
  ((canonicalize labels t).map Prod.snd).dedup.length

/-- The all-`a` string of a given length, used for concrete evaluations. -/
def sA (n : Nat) : String := String.mk (List.replicate n 'a')

/-- Outcome of a load stage: normal continuation, an explicit reported
error (`st.error`), or an uncaught Python exception. -/
inductive LoadOutcome where
  | ok : LoadOutcome
  | reported : String → LoadOutcome
  | raised : String → LoadOutcome
deriving DecidableEq

/-- Column guard of tab 1 (`reworkapp.py` lines 33-34): a missing
'Inspection Date' column is reported through `st.error`. -/
def tab1LoadCheck (cols : List String) : LoadOutcome :=
  if "Inspection Date" ∈ cols then LoadOutcome.ok
  else LoadOutcome.reported "Inspection Date column not found"

/-- Date parsing with coercion (`pd.to_datetime(..., errors='coerce')`,
line 37): every cell yields a value, unparseable ones become missing. -/
def toDatetimeCoerce (parse : String → Option Int) (cells : List String) :
    List (Option Int) := cells.map parse

/-- Column accesses of tab 2 (lines 111-117): the five required columns
are read in source order without a presence guard, so the first missing
one raises a Python `KeyError`. -/
def tab2LoadCheck (cols : List String) : LoadOutcome :=
  if "NG Description" ∉ cols then LoadOutcome.raised "KeyError: NG Description"
  else if "Action" ∉ cols then LoadOutcome.raised "KeyError: Action"
  else if "Discard reason" ∉ cols then LoadOutcome.raised "KeyError: Discard reason"
  else if "Model" ∉ cols then LoadOutcome.raised "KeyError: Model"
  else if "Rework Date" ∉ cols then LoadOutcome.raised "KeyError: Rework Date"
  else LoadOutcome.ok

/-- A parsed inspection timestamp, reduced to the two grouping columns
derived on lines 40-41: a calendar-day index and the hour of day. -/
structure Stamp where
  date : Int
  hour : Nat

/-- One row of the hourly comparison table built on lines 65-68. -/
structure HRow where
  date : Int
  hour : Nat
  actual : Nat
  target : ℚ
  diff : ℚ

/-- The outputs of the machine-data analysis (lines 60-92): the target
rate, the hourly table, the best and worst hours, and the CSV download. -/
structure Tab1Out where
  targetPartsPerHour : ℚ
  table : List HRow
  bestHour : Option HRow
  worstHour : Option HRow
  csv : List String

/-- First row maximizing `f` (pandas `idxmax` keeps the first hit). -/
def argmaxBy (f : HRow → ℚ) : List HRow → Option HRow
  | [] => none
  | r :: rs =>
      match argmaxBy f rs with
      | none => some r
      | some b => if f b > f r then some b else some r

/-- First row minimizing `f` (pandas `idxmin` keeps the first hit). -/
def argminBy (f : HRow → ℚ) : List HRow → Option HRow
  | [] => none
  | r :: rs =>
      match argminBy f rs with
      | none => some r
      | some b => if f b < f r then some b else some r

/-- Lexicographic order on group keys; pandas `groupby` sorts its keys. -/
def keyLe (a b : Int × Nat) : Bool :=
  decide (a.1 < b.1) || (decide (a.1 = b.1) && decide (a.2 ≤ b.2))

/-- One line of the downloaded CSV (`to_csv`, line 89). -/
def rowCsv (r : HRow) : String :=
  toString r.date ++ "," ++ toString r.hour ++ "," ++ toString r.actual ++
    "," ++ toString r.target ++ "," ++ toString r.diff

/-- The machine-data analysis of tab 1 (lines 52-92): filter the stamps
to the selected date range, count parts per (date, hour) group, compare
against the utilization-adjusted hourly target, pick the best and worst
hours by the difference column, and render the CSV download.
`breakTime` and `lunchTime` model the inputs read on lines 22-23. -/
def tab1Compute (expectedCycleTime breakTime lunchTime utilization : ℚ)
    (stamps : List Stamp) (startD endD : Int) : Option Tab1Out :=
  let data := stamps.filter fun s =>
    decide (startD ≤ s.date) && decide (s.date ≤ endD)
  if data.isEmpty then none
  else
    let target := 3600 / (expectedCycleTime / (utilization / 100))
    let ks := ((data.map fun s => (s.date, s.hour)).dedup).mergeSort keyLe
    let table := ks.map fun k =>
      { date := k.1, hour := k.2,
        actual := data.countP fun s => decide ((s.date, s.hour) = k),
        target := target,
        diff := (data.countP fun s => decide ((s.date, s.hour) = k) : ℚ) -
          target : HRow }
    some { targetPartsPerHour := target,
           table := table,
           bestHour := argmaxBy (fun r => r.diff) table,
           worstHour := argminBy (fun r => r.diff) table,
           csv := "Date,Hour,Actual Parts,Target Parts,Difference" ::
             table.map rowCsv }

/-- `value_counts()` of a column (lines 129, 147): occurrence counts of
each distinct value, most frequent first. -/
def valueCounts (l : List String) : List (String × Nat) :=
  ((l.dedup).map fun v => (v, l.count v)).mergeSort fun a b =>
    decide (b.2 ≤ a.2)

/-- Running sums of a list of counts, starting from `acc`. -/
def cumsumAux (acc : Nat) : List Nat → List Nat
  | [] => []
  | x :: xs => (acc + x) :: cumsumAux (acc + x) xs

/-- Cumulative percentage series (lines 130, 148):
`counts.cumsum() / counts.sum() * 100`, in exact rational arithmetic. -/
def cumPercent (counts : List Nat) : List ℚ :=
  (cumsumAux 0 counts).map fun (c : ℕ) => (c : ℚ) / (counts.sum : ℚ) * 100

/-- `fillna("Unknown")` on one column (lines 111-114): missing entries
become the string "Unknown", present entries are unchanged. -/
def fillUnknown (col : List (Option String)) : List String :=
  col.map fun c =>
    match c with
    | none => "Unknown"
    | some s => s

theorem levF_self (f : Nat) (xs : List Char) : levF f xs xs = 0 := by
  induction xs generalizing f with
  | nil => cases f <;> rfl
  | cons x xs ih =>
      cases f with
      | zero => rfl
      | succ f => simp [levF, ih]

theorem levF_eq_zero {f : Nat} {xs ys : List Char}
    (hf : xs.length + ys.length ≤ f) (h : levF f xs ys = 0) : xs = ys := by
  induction f generalizing xs ys with
  | zero =>
      cases xs with
      | nil =>
          cases ys with
          | nil => rfl
          | cons y ys => simp [levF] at h
      | cons x xs => simp at hf
  | succ f ih =>
      cases xs with
      | nil =>
          cases ys with
          | nil => rfl
          | cons y ys => simp [levF] at h
      | cons x xs =>
          cases ys with
          | nil => simp [levF] at h
          | cons y ys =>
              by_cases hxy : x = y
              · subst hxy
                simp only [levF, if_pos rfl] at h
                have : xs.length + ys.length ≤ f := by
                  simp at hf; omega
                rw [ih this h]
              · simp [levF, hxy] at h

theorem similarity_self (a : String) : similarity a a = 1 := by
  unfold similarity
  by_cases h : max a.data.length a.data.length = 0
  · rw [if_pos h]
  · rw [if_neg h, levF_self, Nat.cast_zero, sub_zero, Rat.mkRat_eq_div]
    push_cast
    rw [div_self]
    exact_mod_cast h

theorem similarity_le_one (a b : String) : similarity a b ≤ 1 := by
  unfold similarity
  by_cases h : max a.data.length b.data.length = 0
  · rw [if_pos h]
  · rw [if_neg h, Rat.mkRat_eq_div]
    have hm : (0 : ℚ) < ((max a.data.length b.data.length : ℕ) : ℚ) := by
      exact_mod_cast Nat.pos_of_ne_zero h
    rw [div_le_one hm]
    push_cast
    have hd : (0 : ℚ) ≤
        ((levF (a.data.length + b.data.length) a.data b.data : ℕ) : ℚ) := by
      positivity
    linarith

theorem similarity_lt_one {a b : String} (hab : a ≠ b) : similarity a b < 1 := by
  unfold similarity
  by_cases h : max a.data.length b.data.length = 0
  · exfalso
    apply hab
    apply String.ext
    have ha : a.data.length = 0 := by omega
    have hb : b.data.length = 0 := by omega
    rw [List.length_eq_zero.mp ha, List.length_eq_zero.mp hb]
  · rw [if_neg h, Rat.mkRat_eq_div]
    have hm : (0 : ℚ) < ((max a.data.length b.data.length : ℕ) : ℚ) := by
      exact_mod_cast Nat.pos_of_ne_zero h
    rw [div_lt_one hm]
    have hd : levF (a.data.length + b.data.length) a.data b.data ≠ 0 := by
      intro h0
      exact hab (String.ext (levF_eq_zero (Nat.le_refl _) h0))
    have hd1 : (1 : ℚ) ≤
        ((levF (a.data.length + b.data.length) a.data b.data : ℕ) : ℚ) := by
      exact_mod_cast Nat.one_le_iff_ne_zero.mpr hd
    push_cast
    linarith

theorem mlookup_dinsert_self (m : List (String × String)) (k v : String) :
    mlookup (dinsert m k v) k = some v := by
  induction m with
  | nil => simp [dinsert, mlookup]
  | cons p m ih =>
      by_cases h : p.1 = k
      · simp [dinsert, h, mlookup]
      · simp only [dinsert]
        rw [if_neg h]
        simp only [mlookup]
        rw [if_neg h]
        exact ih

theorem mlookup_dinsert_ne (m : List (String × String)) {k x : String}
    (v : String) (h : k ≠ x) : mlookup (dinsert m k v) x = mlookup m x := by
  induction m with
  | nil => simp [dinsert, mlookup, h]
  | cons p m ih =>
      by_cases hp : p.1 = k
      · simp only [dinsert]
        rw [if_pos hp]
        simp only [mlookup]
        rw [if_neg h, if_neg (hp ▸ h)]
      · simp only [dinsert]
        rw [if_neg hp]
        simp only [mlookup]
        by_cases hx : p.1 = x
        · rw [if_pos hx, if_pos hx]
        · rw [if_neg hx, if_neg hx]
          exact ih

theorem keys_dinsert (m : List (String × String)) (k v : String) :
    keys (dinsert m k v) = if k ∈ keys m then keys m else keys m ++ [k] := by
  induction m with
  | nil => simp [dinsert, keys]
  | cons p m ih =>
      by_cases h : p.1 = k
      · simp [dinsert, keys, h]
      · simp only [dinsert]
        rw [if_neg h]
        simp only [keys, List.map_cons] at ih ⊢
        rw [ih]
        have hk : (k ∈ p.1 :: List.map Prod.fst m) ↔ (k ∈ List.map Prod.fst m) := by
          constructor
          · intro hm
            rcases List.mem_cons.mp hm with h1 | h1
            · exact absurd h1.symm h
            · exact h1
          · intro hm
            exact List.mem_cons_of_mem _ hm
        by_cases hm : k ∈ List.map Prod.fst m
        · rw [if_pos hm, if_pos (hk.mpr hm)]
        · rw [if_neg hm, if_neg (fun c => hm (hk.mp c))]
          simp

theorem mem_keys_of_mlookup {m : List (String × String)} {k v : String}
    (h : mlookup m k = some v) : k ∈ keys m := by
  induction m with
  | nil => simp [mlookup] at h
  | cons p m ih =>
      simp only [mlookup] at h
      by_cases hp : p.1 = k
      · simp [keys, hp]
      · rw [if_neg hp] at h
        exact List.mem_cons_of_mem _ (ih h)

theorem mlookup_isSome_of_mem_keys {m : List (String × String)} {k : String}
    (h : k ∈ keys m) : ∃ v, mlookup m k = some v := by
  induction m with
  | nil => simp [keys] at h
  | cons p m ih =>
      by_cases hp : p.1 = k
      · exact ⟨p.2, by simp [mlookup, hp]⟩
      · have : k ∈ keys m := by
          rcases List.mem_cons.mp h with h1 | h1
          · exact absurd h1.symm hp
          · exact h1
        rcases ih this with ⟨v, hv⟩
        exact ⟨v, by simp only [mlookup]; rw [if_neg hp]; exact hv⟩

theorem bestMatch_ne_none (sim : String → String → ℚ) (L k : String)
    (ks : List String) : bestMatch sim L (k :: ks) ≠ none := by
  simp only [bestMatch]
  cases bestMatch sim L ks with
  | none => simp
  | some b =>
      by_cases h : sim L b > sim L k
      · simp [h]
      · simp [h]

theorem bestMatch_spec (sim : String → String → ℚ) (L : String) :
    ∀ ks b, bestMatch sim L ks = some b →
      b ∈ ks ∧ ∀ k ∈ ks, sim L k ≤ sim L b := by
  intro ks
  induction ks with
  | nil => intro b h; simp [bestMatch] at h
  | cons k ks ih =>
      intro b h
      simp only [bestMatch] at h
      cases hb : bestMatch sim L ks with
      | none =>
          rw [hb] at h
          cases ks with
          | nil =>
              simp at h
              subst h
              exact ⟨List.mem_singleton_self _, by
                intro x hx
                rcases List.mem_singleton.mp hx with rfl
                exact le_refl _⟩
          | cons k' ks' => exact absurd hb (bestMatch_ne_none sim L k' ks')
      | some c =>
          rw [hb] at h
          dsimp only at h
          rcases ih c hb with ⟨hc_mem, hc_max⟩
          by_cases hgt : sim L c > sim L k
          · rw [if_pos hgt] at h
            cases h
            refine ⟨List.mem_cons_of_mem _ hc_mem, ?_⟩
            intro x hx
            rcases List.mem_cons.mp hx with rfl | hx
            · exact le_of_lt hgt
            · exact hc_max x hx
          · rw [if_neg hgt] at h
            cases h
            refine ⟨List.mem_cons_self _ _, ?_⟩
            intro x hx
            rcases List.mem_cons.mp hx with rfl | hx
            · exact le_refl _
            · exact le_trans (hc_max x hx) (not_lt.mp hgt)

theorem bestMatch_self_mem {L : String} {ks : List String} (hL : L ∈ ks) :
    bestMatch similarity L ks = some L := by
  cases hb : bestMatch similarity L ks with
  | none =>
      cases ks with
      | nil => simp at hL
      | cons k ks' => exact absurd hb (bestMatch_ne_none similarity L k ks')
  | some b =>
      rcases bestMatch_spec similarity L ks b hb with ⟨_, hmax⟩
      by_cases hbl : b = L
      · rw [hbl]
      · exfalso
        have h1 : similarity L L ≤ similarity L b := hmax L hL
        rw [similarity_self] at h1
        exact absurd (lt_of_lt_of_le (similarity_lt_one (fun c => hbl c.symm)) h1)
          (lt_irrefl _)

theorem canonicalizeAux_append (sim : String → String → ℚ) (t : ℚ)
    (l1 l2 : List String) (m : List (String × String)) :
    canonicalizeAux sim t (l1 ++ l2) m =
      canonicalizeAux sim t l2 (canonicalizeAux sim t l1 m) := by
  induction l1 generalizing m with
  | nil => rfl
  | cons L l1 ih =>
      simp only [List.cons_append, canonicalizeAux]
      exact ih _

theorem mlookup_canonicalizeAux_of_not_mem (sim : String → String → ℚ) (t : ℚ)
    {L : String} : ∀ {ls : List String} (m : List (String × String)),
    L ∉ ls → mlookup (canonicalizeAux sim t ls m) L = mlookup m L := by
  intro ls
  induction ls with
  | nil => intro m _; rfl
  | cons x ls ih =>
      intro m h
      have hx : x ≠ L := fun c => h (c ▸ List.mem_cons_self x ls)
      have hl : L ∉ ls := fun c => h (List.mem_cons_of_mem _ c)
      simp only [canonicalizeAux]
      rw [ih _ hl, mlookup_dinsert_ne _ _ hx]

theorem mem_keys_canonicalizeAux (sim : String → String → ℚ) (t : ℚ)
    (x : String) : ∀ (ls : List String) (m : List (String × String)),
    x ∈ keys (canonicalizeAux sim t ls m) ↔ x ∈ keys m ∨ x ∈ ls := by
  intro ls
  induction ls with
  | nil => intro m; simp [canonicalizeAux]
  | cons L ls ih =>
      intro m
      simp only [canonicalizeAux]
      rw [ih]
      rw [keys_dinsert]
      by_cases h : L ∈ keys m
      · rw [if_pos h]
        constructor
        · rintro (h1 | h1)
          · exact Or.inl h1
          · exact Or.inr (List.mem_cons_of_mem _ h1)
        · rintro (h1 | h1)
          · exact Or.inl h1
          · rcases List.mem_cons.mp h1 with rfl | h2
            · exact Or.inl h
            · exact Or.inr h2
      · rw [if_neg h]
        constructor
        · rintro (h1 | h1)
          · rcases List.mem_append.mp h1 with h2 | h2
            · exact Or.inl h2
            · rcases List.mem_singleton.mp h2 with rfl
              exact Or.inr (List.mem_cons_self _ _)
          · exact Or.inr (List.mem_cons_of_mem _ h1)
        · rintro (h1 | h1)
          · exact Or.inl (List.mem_append.mpr (Or.inl h1))
          · rcases List.mem_cons.mp h1 with rfl | h2
            · exact Or.inl (List.mem_append.mpr (Or.inr (List.mem_singleton_self _)))
            · exact Or.inr h2

theorem keys_canonicalizeAux_nodup (sim : String → String → ℚ) (t : ℚ) :
    ∀ (ls : List String) (m : List (String × String)), ls.Nodup →
    (∀ x ∈ ls, x ∉ keys m) →
    keys (canonicalizeAux sim t ls m) = keys m ++ ls := by
  intro ls
  induction ls with
  | nil => intro m _ _; simp [canonicalizeAux]
  | cons L ls ih =>
      intro m hnd hdisj
      simp only [canonicalizeAux]
      have hL : L ∉ keys m := hdisj L (List.mem_cons_self _ _)
      have hnd' : ls.Nodup := (List.nodup_cons.mp hnd).2
      have hLls : L ∉ ls := (List.nodup_cons.mp hnd).1
      have hdisj' : ∀ x ∈ ls, x ∉ keys (dinsert m L (chooseValue sim L t m)) := by
        intro x hx
        rw [keys_dinsert, if_neg hL]
        intro hc
        rcases List.mem_append.mp hc with h1 | h1
        · exact hdisj x (List.mem_cons_of_mem _ hx) h1
        · rcases List.mem_singleton.mp h1 with rfl
          exact hLls hx
      rw [ih _ hnd' hdisj', keys_dinsert, if_neg hL]
      simp

theorem firstIdx_cons_self (x : String) (l : List String) :
    firstIdx (x :: l) x = 0 := by
  simp [firstIdx]

theorem firstIdx_append_left {x : String} {l1 : List String} (l2 : List String)
    (h : x ∈ l1) : firstIdx (l1 ++ l2) x = firstIdx l1 x := by
  induction l1 with
  | nil => simp at h
  | cons y l1 ih =>
      by_cases hy : y = x
      · simp [firstIdx, hy]
      · have : x ∈ l1 := by
          rcases List.mem_cons.mp h with h1 | h1
          · exact absurd h1.symm hy
          · exact h1
        simp only [List.cons_append, firstIdx, List.append_eq]
        rw [if_neg hy, if_neg hy, ih this]

theorem firstIdx_append_right {x : String} {l1 : List String} (l2 : List String)
    (h : x ∉ l1) : firstIdx (l1 ++ l2) x = l1.length + firstIdx l2 x := by
  induction l1 with
  | nil => simp [firstIdx]
  | cons y l1 ih =>
      have hy : y ≠ x := fun c => h (c ▸ List.mem_cons_self y l1)
      have h1 : x ∉ l1 := fun c => h (List.mem_cons_of_mem _ c)
      simp only [List.cons_append, firstIdx, List.length_cons, List.append_eq]
      rw [if_neg hy, ih h1]
      omega

theorem firstIdx_lt_length {x : String} {l : List String} (h : x ∈ l) :
    firstIdx l x < l.length := by
  induction l with
  | nil => simp at h
  | cons y l ih =>
      by_cases hy : y = x
      · simp [firstIdx, hy]
      · have : x ∈ l := by
          rcases List.mem_cons.mp h with h1 | h1
          · exact absurd h1.symm hy
          · exact h1
        simp only [firstIdx, List.length_cons]
        rw [if_neg hy]
        exact Nat.succ_lt_succ (ih this)

theorem mem_keys_dinsert_of_mem {x : String} {m : List (String × String)}
    (k v : String) (h : x ∈ keys m) : x ∈ keys (dinsert m k v) := by
  rw [keys_dinsert]
  by_cases hk : k ∈ keys m
  · rw [if_pos hk]; exact h
  · rw [if_neg hk]; exact List.mem_append.mpr (Or.inl h)

theorem mem_keys_dinsert_self (m : List (String × String)) (k v : String) :
    k ∈ keys (dinsert m k v) := by
  rw [keys_dinsert]
  by_cases hk : k ∈ keys m
  · rw [if_pos hk]; exact hk
  · rw [if_neg hk]
    exact List.mem_append.mpr (Or.inr (List.mem_singleton_self _))

theorem chooseValue_mem_keys_dinsert (t : ℚ) (L : String)
    (m : List (String × String)) :
    chooseValue similarity L t m ∈ keys (dinsert m L (chooseValue similarity L t m)) := by
  cases hbm : bestMatch similarity L (keys m) with
  | none =>
      have : chooseValue similarity L t m = L := by
        simp [chooseValue, hbm]
      rw [this]
      exact mem_keys_dinsert_self _ _ _
  | some b =>
      by_cases ht : t ≤ similarity L b
      · have hw : chooseValue similarity L t m = b := by
          simp [chooseValue, hbm, ht]
        rw [hw]
        exact mem_keys_dinsert_of_mem _ _
          (bestMatch_spec similarity L (keys m) b hbm).1
      · have hw : chooseValue similarity L t m = L := by
          simp [chooseValue, hbm, ht]
        rw [hw]
        exact mem_keys_dinsert_self _ _ _

theorem canonicalizeAux_good (t : ℚ) (full : List String) :
    ∀ (ls done : List String) (m : List (String × String)),
    full = done ++ ls →
    (∀ x, x ∈ keys m ↔ x ∈ done) →
    (∀ k v, mlookup m k = some v →
      v ∈ keys m ∧ firstIdx full v ≤ firstIdx full k) →
    ∀ k v, mlookup (canonicalizeAux similarity t ls m) k = some v →
      v ∈ keys (canonicalizeAux similarity t ls m) ∧
      firstIdx full v ≤ firstIdx full k := by
  intro ls
  induction ls with
  | nil =>
      intro done m _ _ hgood k v h
      exact hgood k v h
  | cons L ls ih =>
      intro done m hfull hkeys hgood
      simp only [canonicalizeAux]
      have hfull' : full = (done ++ [L]) ++ ls := by
        rw [hfull]; simp
      have hkeys' : ∀ x, x ∈ keys (dinsert m L (chooseValue similarity L t m)) ↔
          x ∈ done ++ [L] := by
        intro x
        rw [keys_dinsert]
        by_cases hL : L ∈ keys m
        · rw [if_pos hL]
          rw [hkeys x]
          constructor
          · intro hx; exact List.mem_append.mpr (Or.inl hx)
          · intro hx
            rcases List.mem_append.mp hx with h1 | h1
            · exact h1
            · rcases List.mem_singleton.mp h1 with rfl
              exact (hkeys _).mp hL
        · rw [if_neg hL]
          constructor
          · intro hx
            rcases List.mem_append.mp hx with h1 | h1
            · exact List.mem_append.mpr (Or.inl ((hkeys x).mp h1))
            · exact List.mem_append.mpr (Or.inr h1)
          · intro hx
            rcases List.mem_append.mp hx with h1 | h1
            · exact List.mem_append.mpr (Or.inl ((hkeys x).mpr h1))
            · exact List.mem_append.mpr (Or.inr h1)
      have hgood' : ∀ k v,
          mlookup (dinsert m L (chooseValue similarity L t m)) k = some v →
          v ∈ keys (dinsert m L (chooseValue similarity L t m)) ∧
          firstIdx full v ≤ firstIdx full k := by
        intro k v h
        by_cases hk : L = k
        · subst hk
          rw [mlookup_dinsert_self] at h
          cases h
          refine ⟨chooseValue_mem_keys_dinsert t L m, ?_⟩
          cases hbm : bestMatch similarity L (keys m) with
          | none => simp [chooseValue, hbm]
          | some b =>
              by_cases ht : t ≤ similarity L b
              · have hw : chooseValue similarity L t m = b := by
                  simp [chooseValue, hbm, ht]
                rw [hw]
                by_cases hLm : L ∈ keys m
                · have : bestMatch similarity L (keys m) = some L :=
                    bestMatch_self_mem hLm
                  rw [this] at hbm
                  cases hbm
                  exact Nat.le_refl _
                · have hbmem : b ∈ keys m :=
                    (bestMatch_spec similarity L (keys m) b hbm).1
                  have hbdone : b ∈ done := (hkeys b).mp hbmem
                  have hLdone : L ∉ done := fun c => hLm ((hkeys L).mpr c)
                  rw [hfull]
                  rw [firstIdx_append_left _ hbdone,
                    firstIdx_append_right _ hLdone, firstIdx_cons_self]
                  have := firstIdx_lt_length hbdone
                  omega
              · have hw : chooseValue similarity L t m = L := by
                  simp [chooseValue, hbm, ht]
                rw [hw]
        · rw [mlookup_dinsert_ne _ _ hk] at h
          rcases hgood k v h with ⟨hv, hidx⟩
          exact ⟨mem_keys_dinsert_of_mem _ _ hv, hidx⟩
      exact ih (done ++ [L]) _ hfull' hkeys' hgood'

theorem mem_keys_canonicalize (labels : List String) (t : ℚ) (x : String) :
    x ∈ keys (canonicalize labels t) ↔ x ∈ labels := by
  unfold canonicalize
  rw [mem_keys_canonicalizeAux]
  simp [keys]

theorem canonicalize_good (labels : List String) (t : ℚ) (k v : String)
    (h : mlookup (canonicalize labels t) k = some v) :
    v ∈ keys (canonicalize labels t) ∧ firstIdx labels v ≤ firstIdx labels k := by
  refine canonicalizeAux_good t labels labels [] [] (by simp) ?_ ?_ k v h
  · intro x; simp [keys]
  · intro k v h; simp [mlookup] at h

theorem keys_canonicalize_nodup (labels : List String) (t : ℚ)
    (hnd : labels.Nodup) : keys (canonicalize labels t) = labels := by
  unfold canonicalize
  rw [keys_canonicalizeAux_nodup similarity t labels [] hnd]
  · simp [keys]
  · intro x _
    simp [keys]

theorem mlookup_canonicalize_getElem (labels : List String) (t : ℚ)
    (hnd : labels.Nodup) (i : Nat) (hi : i < labels.length) :
    mlookup (canonicalize labels t) labels[i] =
      some (chooseValue similarity labels[i] t (canonicalize (labels.take i) t)) := by
  have hsplit : labels.take i ++ labels.drop i = labels := List.take_append_drop i labels
  have hdrop : labels.drop i = labels[i] :: labels.drop (i + 1) :=
    List.drop_eq_getElem_cons hi
  have hnodup_drop : (labels.drop i).Nodup :=
    List.Nodup.sublist (List.drop_sublist i labels) hnd
  rw [hdrop] at hnodup_drop
  have hnotmem : labels[i] ∉ labels.drop (i + 1) :=
    (List.nodup_cons.mp hnodup_drop).1
  have h1 : canonicalizeAux similarity t labels [] =
      canonicalizeAux similarity t (labels.take i ++ labels.drop i) [] := by
    rw [hsplit]
  rw [show canonicalize labels t = canonicalizeAux similarity t labels [] from rfl,
    h1, canonicalizeAux_append, hdrop]
  simp only [canonicalizeAux]
  rw [mlookup_canonicalizeAux_of_not_mem similarity t _ hnotmem,
    mlookup_dinsert_self]
  rfl

theorem cumsumAux_chain (cs : List Nat) :
    ∀ a, List.Chain' (· ≤ ·) (cumsumAux a cs) := by
  induction cs with
  | nil => intro a; simp [cumsumAux]
  | cons x xs ih =>
      intro a
      simp only [cumsumAux]
      rw [List.chain'_cons']
      constructor
      · intro y hy
        cases xs with
        | nil => simp [cumsumAux] at hy
        | cons z zs =>
            simp [cumsumAux] at hy
            omega
      · exact ih (a + x)

theorem cumsumAux_getLast (cs : List Nat) :
    ∀ a, cs ≠ [] → (cumsumAux a cs).getLast? = some (a + cs.sum) := by
  induction cs with
  | nil => intro a h; exact absurd rfl h
  | cons x xs ih =>
      intro a _
      cases xs with
      | nil => simp [cumsumAux]
      | cons z zs =>
          rw [show cumsumAux a (x :: z :: zs) =
            (a + x) :: cumsumAux (a + x) (z :: zs) from rfl]
          rw [show cumsumAux (a + x) (z :: zs) =
            (a + x + z) :: cumsumAux (a + x + z) zs from rfl]
          rw [List.getLast?_cons_cons]
          have h1 := ih (a + x) (List.cons_ne_nil z zs)
          rw [show cumsumAux (a + x) (z :: zs) =
            (a + x + z) :: cumsumAux (a + x + z) zs from rfl] at h1
          rw [h1]
          congr 1
          simp [List.sum_cons]
          omega

theorem valueCounts_sum (labels : List String) :
    ((valueCounts labels).map Prod.snd).sum = labels.length := by
  have hperm : ((valueCounts labels).map Prod.snd).Perm
      (((labels.dedup).map fun v => (v, labels.count v)).map Prod.snd) :=
    List.Perm.map Prod.snd (List.mergeSort_perm _ _)
  rw [hperm.sum_eq, List.map_map]
  exact List.sum_map_count_dedup_eq_length labels

theorem valueCounts_ne_nil {labels : List String} (h : labels ≠ []) :
    (valueCounts labels).map Prod.snd ≠ [] := by
  intro hc
  have hlen : ((valueCounts labels).map Prod.snd).length = labels.dedup.length := by
    simp [valueCounts, List.length_mergeSort]
  rw [hc] at hlen
  exact h (List.dedup_eq_nil labels |>.mp (List.length_eq_zero.mp hlen.symm))

theorem fillUnknown_count_unknown (col : List (Option String)) :
    (fillUnknown col).count "Unknown" =
      col.count none + col.count (some "Unknown") := by
  induction col with
  | nil => rfl
  | cons c col ih =>
      cases c with
      | none =>
          simp only [fillUnknown, List.map_cons] at ih ⊢
          rw [List.count_cons, List.count_cons, List.count_cons, ih]
          simp
          omega
      | some s =>
          simp only [fillUnknown, List.map_cons] at ih ⊢
          rw [List.count_cons, List.count_cons, List.count_cons, ih]
          by_cases hs : s = "Unknown"
          · subst hs
            simp
            omega
          · have h1 : (s == "Unknown") = false := beq_false_of_ne hs
            have h2 : ((some s : Option String) == some "Unknown") = false := by
              apply beq_false_of_ne
              intro hc
              exact hs (Option.some_injective _ hc)
            have h3 : ((some s : Option String) == none) = false := by
              apply beq_false_of_ne
              simp
            rw [h1, h2, h3]
            simp

theorem fillUnknown_count_other (col : List (Option String)) {s : String}
    (h : s ≠ "Unknown") : (fillUnknown col).count s = col.count (some s) := by
  induction col with
  | nil => rfl
  | cons c col ih =>
      cases c with
      | none =>
          simp only [fillUnknown, List.map_cons] at ih ⊢
          rw [List.count_cons, List.count_cons, ih]
          have h1 : ("Unknown" == s) = false := beq_false_of_ne (fun c => h c.symm)
          have h2 : ((none : Option String) == some s) = false := by
            apply beq_false_of_ne
            simp
          rw [h1, h2]
      | some x =>
          simp only [fillUnknown, List.map_cons] at ih ⊢
          rw [List.count_cons, List.count_cons, ih]
          by_cases hx : x = s
          · subst hx; simp
          · have h1 : (x == s) = false := beq_false_of_ne hx
            have h2 : ((some x : Option String) == some s) = false := by
              apply beq_false_of_ne
              intro hc
              exact hx (Option.some_injective _ hc)
            rw [h1, h2]

/-- C1: for an input sequence of distinct labels and a threshold in
(0,1], `canonicalize` processes the labels in the given order: the final
mapping at the i-th label equals the greedy choice computed from the
mapping built over the first i labels alone — the single best-scoring key
of that mapping (which maximizes the similarity ratio over the key set)
when its similarity reaches the threshold, and the label itself
otherwise; the matched key is recorded as-is, not transitively
resolved. -/
theorem canonicalize_greedy_spec (labels : List String) (t : ℚ)
    (ht0 : 0 < t) (ht1 : t ≤ 1) (hnd : labels.Nodup)
    (i : Nat) (hi : i < labels.length) :
    mlookup (canonicalize labels t) labels[i] =
      some (chooseValue similarity labels[i] t
        (canonicalize (labels.take i) t)) ∧
    ∀ b, bestMatch similarity labels[i]
        (keys (canonicalize (labels.take i) t)) = some b →
      b ∈ keys (canonicalize (labels.take i) t) ∧
      ∀ k ∈ keys (canonicalize (labels.take i) t),
        similarity labels[i] k ≤ similarity labels[i] b :=
  ⟨mlookup_canonicalize_getElem labels t hnd i hi,
   fun b hb => bestMatch_spec similarity labels[i] _ b hb⟩

/-- C1 witness: the theorem instantiated at `["ab", "aa"]`, threshold 1,
position 1. -/
theorem canonicalize_greedy_spec_witness :
    ((0 : ℚ) < 1 ∧ (1 : ℚ) ≤ 1 ∧ (["ab", "aa"] : List String).Nodup ∧
      1 < (["ab", "aa"] : List String).length) ∧
    (mlookup (canonicalize ["ab", "aa"] 1) "aa" =
      some (chooseValue similarity "aa" 1 (canonicalize ["ab"] 1)) ∧
     ∀ b, bestMatch similarity "aa" (keys (canonicalize ["ab"] 1)) = some b →
       b ∈ keys (canonicalize ["ab"] 1) ∧
       ∀ k ∈ keys (canonicalize ["ab"] 1),
         similarity "aa" k ≤ similarity "aa" b) :=
  ⟨⟨by decide, by decide, by decide, by decide⟩,
   canonicalize_greedy_spec ["ab", "aa"] 1 (by decide) (by decide)
     (by decide) 1 (by decide)⟩

/-- C2: every key of the result occurs verbatim in the input sequence,
and every value is a label whose first occurrence in the input is at or
before the first occurrence of its key. -/
theorem canonicalize_keys_values_in_input (labels : List String) (t : ℚ)
    (k v : String) (h : mlookup (canonicalize labels t) k = some v) :
    k ∈ labels ∧ v ∈ labels ∧ firstIdx labels v ≤ firstIdx labels k := by
  have hk := mem_keys_of_mlookup h
  have h2 := canonicalize_good labels t k v h
  exact ⟨(mem_keys_canonicalize labels t k).mp hk,
    (mem_keys_canonicalize labels t v).mp h2.1, h2.2⟩

/-- C2 witness: the theorem instantiated at `["ab", "aa"]`, threshold 1/2,
where "aa" maps to "ab". -/
theorem canonicalize_keys_values_in_input_witness :
    (mlookup (canonicalize ["ab", "aa"] (mkRat 1 2)) "aa" = some "ab") ∧
    ("aa" ∈ (["ab", "aa"] : List String) ∧
      "ab" ∈ (["ab", "aa"] : List String) ∧
      firstIdx ["ab", "aa"] "ab" ≤ firstIdx ["ab", "aa"] "aa") :=
  ⟨by decide,
   canonicalize_keys_values_in_input ["ab", "aa"] (mkRat 1 2) "aa" "ab"
     (by decide)⟩

/-- C3 counterexample: at threshold 3/4 on four runs of the letter `a` of
lengths 10, 9, 7, 6, the value `sA 9` occurs in the mapping (as the value
of `sA 7`) but its own mapped value is `sA 10`, not itself — so a
canonical label does not map to itself and applying the mapping twice
moves `sA 7`. -/
theorem canonicalize_not_idempotent_cex :
    mlookup (canonicalize [sA 10, sA 9, sA 7, sA 6] (mkRat 3 4)) (sA 7) =
      some (sA 9) ∧
    mlookup (canonicalize [sA 10, sA 9, sA 7, sA 6] (mkRat 3 4)) (sA 9) =
      some (sA 10) ∧
    sA 9 ≠ sA 10 := by decide

/-- C3 (amended): every value occurring in the mapping is itself a key of
the mapping; its own mapped value, however, need not be the value itself,
because the matched key is recorded without transitive resolution, so
chains of near-matches can form. -/
theorem canonicalize_values_are_keys (labels : List String) (t : ℚ)
    (k v : String) (h : mlookup (canonicalize labels t) k = some v) :
    ∃ w, mlookup (canonicalize labels t) v = some w :=
  mlookup_isSome_of_mem_keys (canonicalize_good labels t k v h).1

/-- C3 witness: the amended theorem instantiated at `["ab", "aa"]`,
threshold 1/2. -/
theorem canonicalize_values_are_keys_witness :
    (mlookup (canonicalize ["ab", "aa"] (mkRat 1 2)) "aa" = some "ab") ∧
    (∃ w, mlookup (canonicalize ["ab", "aa"] (mkRat 1 2)) "ab" = some w) :=
  ⟨by decide,
   canonicalize_values_are_keys ["ab", "aa"] (mkRat 1 2) "aa" "ab"
     (by decide)⟩

/-- C4 counterexample: for the fixed distinct input
`[sA 10, sA 9, sA 7, sA 6]`, raising the threshold from 3/4 to 17/20
(both in (0,1]) drops the number of distinct canonical labels from 3 to
2; moreover `sA 6` and `sA 7` share the canonical label `sA 7` at the
higher threshold but share no canonical label at the lower one, so the
higher threshold causes a merge that the lower threshold did not have. -/
theorem numCanonical_not_monotone_cex :
    (0 : ℚ) < mkRat 3 4 ∧ mkRat 3 4 ≤ mkRat 17 20 ∧ mkRat 17 20 ≤ 1 ∧
    ([sA 10, sA 9, sA 7, sA 6] : List String).Nodup ∧
    numCanonical [sA 10, sA 9, sA 7, sA 6] (mkRat 3 4) = 3 ∧
    numCanonical [sA 10, sA 9, sA 7, sA 6] (mkRat 17 20) = 2 ∧
    mlookup (canonicalize [sA 10, sA 9, sA 7, sA 6] (mkRat 17 20)) (sA 6) =
      some (sA 7) ∧
    mlookup (canonicalize [sA 10, sA 9, sA 7, sA 6] (mkRat 17 20)) (sA 7) =
      some (sA 7) ∧
    mlookup (canonicalize [sA 10, sA 9, sA 7, sA 6] (mkRat 3 4)) (sA 6) =
      some (sA 7) ∧
    mlookup (canonicalize [sA 10, sA 9, sA 7, sA 6] (mkRat 3 4)) (sA 7) =
      some (sA 9) := by decide

/-- C4 (amended): for a fixed sequence of distinct labels, raising the
threshold can only keep a label's canonical value or turn the label into
its own representative; it never makes a label adopt a representative it
did not have at the lower threshold.  The number of distinct canonical
labels, however, is not monotone in the threshold (see the
counterexample). -/
theorem canonicalize_threshold_per_label (labels : List String) (t1 t2 : ℚ)
    (ht0 : 0 < t1) (h12 : t1 ≤ t2) (ht1 : t2 ≤ 1) (hnd : labels.Nodup)
    (i : Nat) (hi : i < labels.length) :
    mlookup (canonicalize labels t2) labels[i] = some labels[i] ∨
    mlookup (canonicalize labels t2) labels[i] =
      mlookup (canonicalize labels t1) labels[i] := by
  rw [mlookup_canonicalize_getElem labels t2 hnd i hi,
    mlookup_canonicalize_getElem labels t1 hnd i hi]
  have hndt : (labels.take i).Nodup :=
    List.Nodup.sublist (List.take_sublist i labels) hnd
  have hk : keys (canonicalize (labels.take i) t2) =
      keys (canonicalize (labels.take i) t1) := by
    rw [keys_canonicalize_nodup _ _ hndt, keys_canonicalize_nodup _ _ hndt]
  unfold chooseValue
  rw [hk]
  cases hbm : bestMatch similarity labels[i]
      (keys (canonicalize (labels.take i) t1)) with
  | none =>
      left
      rfl
  | some b =>
      dsimp only
      by_cases h2 : t2 ≤ similarity labels[i] b
      · right
        rw [if_pos h2, if_pos (le_trans h12 h2)]
      · left
        rw [if_neg h2]

/-- C4 witness: the amended theorem instantiated at `["ab", "aa"]` with
thresholds 1/2 and 1, position 1. -/
theorem canonicalize_threshold_per_label_witness :
    ((0 : ℚ) < mkRat 1 2 ∧ mkRat 1 2 ≤ 1 ∧ (1 : ℚ) ≤ 1 ∧
      (["ab", "aa"] : List String).Nodup ∧
      1 < (["ab", "aa"] : List String).length) ∧
    (mlookup (canonicalize ["ab", "aa"] 1) "aa" = some "aa" ∨
     mlookup (canonicalize ["ab", "aa"] 1) "aa" =
       mlookup (canonicalize ["ab", "aa"] (mkRat 1 2)) "aa") :=
  ⟨⟨by decide, by decide, by decide, by decide, by decide⟩,
   canonicalize_threshold_per_label ["ab", "aa"] (mkRat 1 2) 1 (by decide)
     (by decide) (by decide) (by decide) 1 (by decide)⟩

/-- C5: determinism — two runs of `canonicalize` on the same input
sequence and threshold return identical mappings. -/
theorem canonicalize_deterministic (labels : List String) (t : ℚ)
    (m1 m2 : List (String × String)) (h1 : canonicalize labels t = m1)
    (h2 : canonicalize labels t = m2) : m1 = m2 :=
  h1.symm.trans h2

/-- C5 witness: the theorem instantiated on two runs at `["aa"]`,
threshold 1. -/
theorem canonicalize_deterministic_witness :
    (canonicalize ["aa"] 1 = [("aa", "aa")] ∧
      canonicalize ["aa"] 1 = [("aa", "aa")]) ∧
    ([("aa", "aa")] : List (String × String)) = [("aa", "aa")] :=
  ⟨⟨by decide, by decide⟩,
   canonicalize_deterministic ["aa"] 1 [("aa", "aa")] [("aa", "aa")]
     (by decide) (by decide)⟩

/-- C6: `canonicalize` accepts any input and never fails: the empty
sequence yields the empty mapping, and every input label — the empty
string included — receives an entry in the returned mapping. -/
theorem canonicalize_total (t : ℚ) :
    canonicalize [] t = [] ∧
    ∀ (labels : List String) (L : String), L ∈ labels →
      ∃ v, mlookup (canonicalize labels t) L = some v := by
  constructor
  · rfl
  · intro labels L hL
    exact mlookup_isSome_of_mem_keys
      ((mem_keys_canonicalize labels t L).mpr hL)

/-- C6 witness: the theorem instantiated at threshold 1 on the singleton
input consisting of the empty string. -/
theorem canonicalize_total_witness :
    ("" ∈ ([""] : List String)) ∧
    (∃ v, mlookup (canonicalize [""] 1) "" = some v) :=
  ⟨by decide, (canonicalize_total 1).2 [""] "" (by decide)⟩

/-- C7 counterexample: a CSV whose columns lack 'NG Description' makes
the rework-data load stage raise an uncaught `KeyError` (there is no
guard before the column accesses of lines 111-117), so this malformed
input does not reach a reported-error path. -/
theorem tab2_missing_column_raises :
    tab2LoadCheck ["Foo"] = LoadOutcome.raised "KeyError: NG Description" := by
  decide

/-- C7 (amended): the machine-data tab guards its 'Inspection Date'
column and reports its absence as an explicit error, and coerced date
parsing yields a value for every cell instead of failing; the rework-data
tab, however, accesses its required columns unguarded, so a CSV missing
one raises an uncaught exception rather than reaching an error path. -/
theorem load_error_paths :
    (∀ cols, "Inspection Date" ∉ cols →
      tab1LoadCheck cols =
        LoadOutcome.reported "Inspection Date column not found") ∧
    (∀ cols, "Inspection Date" ∈ cols →
      tab1LoadCheck cols = LoadOutcome.ok) ∧
    (∀ (parse : String → Option Int) (cells : List String),
      (toDatetimeCoerce parse cells).length = cells.length) ∧
    (∀ cols, "NG Description" ∉ cols →
      tab2LoadCheck cols = LoadOutcome.raised "KeyError: NG Description") := by
  refine ⟨?_, ?_, ?_, ?_⟩
  · intro cols h
    simp [tab1LoadCheck, h]
  · intro cols h
    simp [tab1LoadCheck, h]
  · intro parse cells
    simp [toDatetimeCoerce]
  · intro cols h
    simp [tab2LoadCheck, h]

/-- C7 witness: the amended theorem instantiated on a one-column CSV. -/
theorem load_error_paths_witness :
    ("Inspection Date" ∉ (["X"] : List String) ∧
      tab1LoadCheck ["X"] =
        LoadOutcome.reported "Inspection Date column not found") ∧
    ("NG Description" ∉ (["Inspection Date"] : List String) ∧
      tab2LoadCheck ["Inspection Date"] =
        LoadOutcome.raised "KeyError: NG Description") :=
  ⟨⟨by decide, load_error_paths.1 ["X"] (by decide)⟩,
   ⟨by decide, load_error_paths.2.2.2 ["Inspection Date"] (by decide)⟩⟩

/-- C8: the machine-data analysis reads `break_time` and `lunch_time`
but never uses them — two runs differing only in those inputs produce the
same hourly table, target rate, best and worst hours, and CSV download. -/
theorem tab1_ignores_breaks (expectedCycleTime b1 l1 b2 l2 utilization : ℚ)
    (stamps : List Stamp) (startD endD : Int) :
    tab1Compute expectedCycleTime b1 l1 utilization stamps startD endD =
      tab1Compute expectedCycleTime b2 l2 utilization stamps startD endD :=
  rfl

/-- C9: for a nonempty column, the cumulative percentage series of its
value counts is non-decreasing and ends at exactly 100. -/
theorem pareto_cumulative (labels : List String) (h : labels ≠ []) :
    List.Chain' (· ≤ ·) (cumPercent ((valueCounts labels).map Prod.snd)) ∧
    (cumPercent ((valueCounts labels).map Prod.snd)).getLast? = some 100 := by
  have hsum := valueCounts_sum labels
  have hpos : 0 < labels.length := List.length_pos.mpr h
  have hq : (0 : ℚ) <
      (((valueCounts labels).map Prod.snd).sum : ℕ) := by
    rw [hsum]
    exact_mod_cast hpos
  constructor
  · unfold cumPercent
    rw [List.chain'_map]
    apply List.Chain'.imp ?_ (cumsumAux_chain _ 0)
    intro a b hab
    have hcast : (a : ℚ) ≤ (b : ℚ) := by exact_mod_cast hab
    have h1 : (a : ℚ) / (((valueCounts labels).map Prod.snd).sum : ℕ) ≤
        (b : ℚ) / (((valueCounts labels).map Prod.snd).sum : ℕ) :=
      (div_le_div_iff_of_pos_right hq).mpr hcast
    have h100 : (0 : ℚ) ≤ 100 := by norm_num
    exact mul_le_mul_of_nonneg_right h1 h100
  · unfold cumPercent
    rw [List.getLast?_map, cumsumAux_getLast _ 0 (valueCounts_ne_nil h)]
    rw [Option.map_some']
    rw [Nat.zero_add]
    congr 1
    rw [div_self (ne_of_gt hq), one_mul]

/-- C9 witness: the theorem instantiated at the singleton column
`["a"]`. -/
theorem pareto_cumulative_witness :
    ((["a"] : List String) ≠ []) ∧
    (List.Chain' (· ≤ ·)
      (cumPercent ((valueCounts ["a"]).map Prod.snd)) ∧
     (cumPercent ((valueCounts ["a"]).map Prod.snd)).getLast? = some 100) :=
  ⟨by decide, pareto_cumulative ["a"] (by decide)⟩

/-- C10: filling a column replaces exactly the missing entries with
"Unknown" and keeps every present entry unchanged, so counting after the
fill sees no missing values: the "Unknown" category absorbs the missing
rows, and every other category keeps its count. -/
theorem fillUnknown_spec (col : List (Option String)) :
    (fillUnknown col).length = col.length ∧
    (∀ (i : Nat) (hi : i < col.length) (hi2 : i < (fillUnknown col).length),
      (col[i] = none → (fillUnknown col)[i] = "Unknown") ∧
      ∀ s, col[i] = some s → (fillUnknown col)[i] = s) ∧
    (fillUnknown col).count "Unknown" =
      col.count none + col.count (some "Unknown") ∧
    ∀ s, s ≠ "Unknown" → (fillUnknown col).count s = col.count (some s) := by
  refine ⟨by simp [fillUnknown], ?_, fillUnknown_count_unknown col,
    fun s hs => fillUnknown_count_other col hs⟩
  intro i hi hi2
  constructor
  · intro hnone
    simp [fillUnknown, hnone]
  · intro s hsome
    simp [fillUnknown, hsome]

/-- C10 witness: the theorem instantiated at a three-entry column with
one missing value. -/
theorem fillUnknown_spec_witness :
    ((fillUnknown [none, some "x", some "Unknown"]).length =
      ([none, some "x", some "Unknown"] : List (Option String)).length) ∧
    ((fillUnknown [none, some "x", some "Unknown"]).count "Unknown" =
      ([none, some "x", some "Unknown"] : List (Option String)).count none +
        ([none, some "x", some "Unknown"] : List (Option String)).count
          (some "Unknown")) :=
  ⟨(fillUnknown_spec [none, some "x", some "Unknown"]).1,
   (fillUnknown_spec [none, some "x", some "Unknown"]).2.2.1⟩

end Rework
